import Mathlib

/-!
Verification of the form-validation engine of `five-minutes-demo`
(`src/types/index.ts` and the `useForm` hook).

The repository builds runtime validators from the io-ts library
(`t.string`, `t.boolean`, `t.brand`, `t.intersection`, `t.union`, `t.type`,
and `withMessage` from io-ts-types) and a React hook that holds the form
state, runs `codec.decode` on demand, and projects the raw `t.Errors`
list to a per-field error mapping.

The embedding below models:
  * JavaScript values (`Value`) — strings, numbers, booleans, `null`,
    `undefined`, and plain objects as insertion-ordered key/value lists;
  * the io-ts codecs that the repository instantiates (`Codec`), together
    with the io-ts `validate`/`decode` semantics: `t.intersection` runs
    every member and accumulates the failures of all failing members in
    member order; `t.union` returns the first member success and, when all
    members fail, the concatenation of all members' failures; `t.type`
    checks that the input is an object and then validates every declared
    property, accumulating failures; `withMessage` collapses the wrapped
    codec's failures into a single failure carrying the fixed message;
  * validation errors (`VError`) carrying the failed value, the context
    path and the optional message.  Errors produced by `validateC` carry
    the context path *relative* to the codec they come from; io-ts builds
    contexts by appending one entry per traversed node, so `decode`
    recovers the absolute io-ts context by prepending the root entry
    (whose key is the empty string).  Only the `key` component of io-ts
    context entries is modelled: it is the only component the repository
    reads (`error.context[1].key`).
  * the `useForm` controller (`validate` / `reset` / field updates /
    `errorsToFormErrors` / the field-descriptor dispatch / the
    focus-first-invalid-field side effect).

The email and phone predicates come from the external `validator` package
(`isEmail`, `isMobilePhone`); they are kept abstract as an environment
(`Env`) of two boolean-valued string predicates, and theorems that need
them take hypotheses about their values on the concrete strings involved.
JavaScript string `.length` counts UTF-16 code units; every string handled
in the development is in the Basic Multilingual Plane, where this agrees
with the character count used here.
-/

/-! A JavaScript value, as far as the engine observes it: strings, numbers,
booleans, `null`, `undefined`, and plain objects as insertion-ordered
association lists (`ObjProps`). -/
mutual
inductive Value where
  | vStr (s : String)
  | vNum (n : Int)
  | vBool (b : Bool)
  | vNull
  | vUndefined
  | vObj (props : ObjProps)

inductive ObjProps where
  | nil
  | cons (key : String) (val : Value) (rest : ObjProps)
end

deriving instance DecidableEq for Value
deriving instance DecidableEq for ObjProps

/-- Property read `a[k]` on an object's property list: JavaScript objects
have unique keys, so the first match is the value. -/
def ObjProps.get : ObjProps → String → Value
  | .nil, _ => .vUndefined
  | .cons k v r, key => if k == key then v else r.get key

/-- Property write: replacing an existing key keeps its insertion position
(as JavaScript `{ ...o, [k]: x }` and `o[k] = x` both do); a new key is
appended at the end. -/
def ObjProps.set : ObjProps → String → Value → ObjProps
  | .nil, key, x => .cons key x .nil
  | .cons k v r, key, x =>
    if k == key then .cons k x r else .cons k v (r.set key x)

/-- Property read `a[k]`: on a non-object the engine only ever reads keys
that do not exist as own properties, giving `undefined`. -/
def objGet (a : Value) (k : String) : Value :=
  match a with
  | .vObj ps => ps.get k
  | _ => .vUndefined

/-- Property write used both by `t.type`'s output construction and the
controller's `{ ...state, [key]: value }` update.  The claims only apply
it to object states; on a non-object the spread would drop the primitive,
leaving an object with the single new key. -/
def objSet (a : Value) (k : String) (x : Value) : Value :=
  match a with
  | .vObj ps => .vObj (ps.set k x)
  | _ => .vObj (.cons k x .nil)

/-- Is the value a JavaScript object (`typeof u === 'object' && u !== null`)?
The engine's object-likes are exactly `vObj`. -/
def Value.isObj : Value → Bool
  | .vObj _ => true
  | _ => false

/-- One entry of an io-ts context path.  io-ts entries also carry the codec
and the actual value; the repository reads only `.key`, which is all that
is modelled. -/
structure CtxEntry where
  key : String
deriving DecidableEq

/-- An io-ts `ValidationError`: the failed value, the context path and the
optional message (`withMessage` failures carry a message, plain codec
failures do not). -/
structure VError where
  value : Value
  context : List CtxEntry
  message : Option String
deriving DecidableEq

/-- The brands the repository declares with `t.brand(t.string, predicate,
name)`; each tag names the predicate applied to the already-checked
string. -/
inductive BrandK where
  | nonEmptyB
  | trimmedB
  | max64B
  | max512B
  | min4B
  | emailB
  | phoneB
deriving DecidableEq

/-- The external `validator` package predicates (`isEmail`,
`isMobilePhone`), kept abstract. -/
structure Env where
  isEmail : String → Bool
  isMobilePhone : String → Bool

/-- The JavaScript `String.prototype.trim` whitespace set (WhiteSpace and
LineTerminator code points; the Unicode space separators beyond the ones
listed do not occur in any value of this development). -/
def jsWhitespace (c : Char) : Bool :=
  c ∈ ['\t', '\n', '\x0b', '\x0c', '\r', ' ', '\u00A0', '\u1680', '\u2028', '\u2029', '\uFEFF']

/-- JavaScript `s.trim()`. -/
def jsTrim (s : String) : String :=
  String.mk (((s.data.dropWhile jsWhitespace).reverse.dropWhile jsWhitespace).reverse)

/-- JavaScript `s.length` (UTF-16 code units; equal to the character count
on the BMP strings this development handles). -/
def jsLength (s : String) : Nat :=
  s.data.length

/-- The predicate of each brand, as written in `src/types/index.ts`:
`s.length > 0`, `s.trim().length === s.length`, `s.length <= 64`,
`s.length <= 512`, `s.length >= 4`, `isEmail(s)`, `isMobilePhone(s)`. -/
def brandPredOf (env : Env) : BrandK → String → Bool
  | .nonEmptyB => fun s => jsLength s > 0
  | .trimmedB => fun s => jsLength (jsTrim s) == jsLength s
  | .max64B => fun s => jsLength s ≤ 64
  | .max512B => fun s => jsLength s ≤ 512
  | .min4B => fun s => jsLength s ≥ 4
  | .emailB => env.isEmail
  | .phoneB => env.isMobilePhone

/-! The io-ts codecs the repository instantiates.  `brand` is
`t.brand(t.string, p, name)` (a refinement of `t.string`), `withMsg` is
io-ts-types `withMessage`, `inter`/`union`/`typ` are `t.intersection`,
`t.union` and `t.type`. -/
mutual
inductive Codec where
  | str
  | boolean
  | brand (b : BrandK)
  | withMsg (c : Codec) (msg : String)
  | inter (cs : CodecList)
  | union (cs : CodecList)
  | typ (props : PropList)

inductive CodecList where
  | nil
  | cons (c : Codec) (rest : CodecList)

inductive PropList where
  | nil
  | cons (key : String) (c : Codec) (rest : PropList)
end

deriving instance DecidableEq for Codec
deriving instance DecidableEq for CodecList
deriving instance DecidableEq for PropList

def CodecList.ofList : List Codec → CodecList
  | [] => .nil
  | c :: r => .cons c (CodecList.ofList r)

def CodecList.toList : CodecList → List Codec
  | .nil => []
  | .cons c r => c :: r.toList

def PropList.ofList : List (String × Codec) → PropList
  | [] => .nil
  | (k, c) :: r => .cons k c (PropList.ofList r)

def PropList.toList : PropList → List (String × Codec)
  | .nil => []
  | .cons k c r => (k, c) :: r.toList

/-- io-ts `mergeAll(base, us)`, used by `t.intersection` on success: if
every member output equals the base input, the base is returned; if all
outputs are primitive, the last one; otherwise the outputs' own properties
are merged into a fresh object in order.  (io-ts compares by reference;
every intersection in this repository is over refinements of `t.string`
that return their input unchanged, so the first branch is the one ever
taken and structural equality agrees with reference equality.) -/
def mergeAll (base : Value) (us : List Value) : Value :=
  if us.all (fun u => u == base) then base
  else if us.all (fun u => !u.isObj) then (us.getLast?).getD base
  else
    .vObj (us.foldl
      (fun acc u =>
        match u with
        | .vObj ps => mergeInto acc ps
        | _ => acc)
      .nil)
where
  mergeInto (acc : ObjProps) : ObjProps → ObjProps
    | .nil => acc
    | .cons k v r => mergeInto (acc.set k v) r

/-- Prefix one context entry onto an error's (relative) context path, as
io-ts `appendContext` does when a composite hands its context to a
member. -/
def withCtx (k : String) (e : VError) : VError :=
  { e with context := ⟨k⟩ :: e.context }

/-! The io-ts `validate` semantics for the codecs of this repository.
Errors carry their context path relative to the codec being run (io-ts
passes an extended absolute context down; relative paths compose the same
way and make the result independent of the caller's position).

* `str` / `boolean`: accept exactly strings / booleans (`t.string`,
  `t.boolean`), failing with a single message-less error at the current
  position.
* `brand b`: `t.brand(t.string, p, name)` first runs `t.string` (its
  failure propagates unchanged), then the predicate, failing at the
  current position with no message.
* `withMsg c m`: io-ts-types `withMessage` — on failure of `c`, the whole
  failure list is replaced by one error at the current position carrying
  the fixed message `m`.
* `inter cs`: `t.intersection` runs **every** member (no short-circuit),
  prefixing member `i`'s failures with context key `toString i`, and fails
  with the concatenation of all failing members' failures in member
  order; on success it returns `mergeAll` of the member outputs.
* `union cs`: `t.union` returns the first member success in declared
  order; if every member fails it fails with the concatenation of all
  members' failures.
* `typ props`: `t.type` first requires an object (`UnknownRecord`),
  failing with a single message-less error at the current position;
  otherwise it validates every declared property against the (updated)
  object, prefixing each property's failures with its key, accumulating
  failures across properties, and on success returns the object with each
  declared property replaced by its decoded output. -/
mutual
def validateC (env : Env) : Codec → Value → Except (List VError) Value
  | .str, v =>
    match v with
    | .vStr _ => .ok v
    | _ => .error [⟨v, [], none⟩]
  | .boolean, v =>
    match v with
    | .vBool _ => .ok v
    | _ => .error [⟨v, [], none⟩]
  | .brand b, v =>
    match v with
    | .vStr s => if brandPredOf env b s then .ok v else .error [⟨v, [], none⟩]
    | _ => .error [⟨v, [], none⟩]
  | .withMsg c m, v =>
    match validateC env c v with
    | .ok a => .ok a
    | .error _ => .error [⟨v, [], some m⟩]
  | .inter cs, v =>
    match interGo env cs v 0 with
    | (errs, us) => if errs.isEmpty then .ok (mergeAll v us) else .error errs
  | .union cs, v => unionGo env cs v 0
  | .typ props, v =>
    match v with
    | .vObj _ =>
      match typGo env props v with
      | (errs, a) => if errs.isEmpty then .ok a else .error errs
    | _ => .error [⟨v, [], none⟩]

def interGo (env : Env) : CodecList → Value → Nat → (List VError × List Value)
  | .nil, _, _ => ([], [])
  | .cons c rest, v, i =>
    match validateC env c v, interGo env rest v (i + 1) with
    | .ok u, (errs, us) => (errs, u :: us)
    | .error es, (errs, us) => (es.map (withCtx (toString i)) ++ errs, us)

def unionGo (env : Env) : CodecList → Value → Nat → Except (List VError) Value
  | .nil, _, _ => .error []
  | .cons c rest, v, i =>
    match validateC env c v with
    | .ok u => .ok u
    | .error es =>
      match unionGo env rest v (i + 1) with
      | .ok u => .ok u
      | .error es2 => .error (es.map (withCtx (toString i)) ++ es2)

def typGo (env : Env) : PropList → Value → (List VError × Value)
  | .nil, a => ([], a)
  | .cons k c rest, a =>
    match validateC env c (objGet a k) with
    | .ok u =>
      match typGo env rest (objSet a k u) with
      | (errs, a2) => (errs, a2)
    | .error es =>
      match typGo env rest a with
      | (errs, a2) => (es.map (withCtx k) ++ errs, a2)
end

/-- io-ts `decode`: run `validate` with the root context, whose single
entry has the empty-string key; errors therefore carry absolute context
paths starting with the root entry. -/
def decode (env : Env) (c : Codec) (v : Value) : Except (List VError) Value :=
  match validateC env c v with
  | .ok a => .ok a
  | .error es => .error (es.map (fun e => { e with context := ⟨""⟩ :: e.context }))

/-! The fixed error-message catalog `validationErrors` of
`src/types/index.ts`. -/
namespace validationErrors

def TypeString : String := "Invalid string type."
def NonEmptyString : String := "Can not be empty."
def TrimmedString : String := "Please remove leading and trailing whitespaces."
def TooLong : String := "Too long."
def TooShort : String := "Too short."
def EmailString : String := "Email is not valid."
def PhoneString : String := "Invalid phone number."

end validationErrors

/-- Source: `TypeString = withMessage(t.string, () => validationErrors.TypeString)`. -/
def TypeString : Codec := .withMsg .str validationErrors.TypeString

/-- Source: `NonEmptyString = withMessage(t.brand(t.string, s => s.length > 0, 'NonEmptyString'), ...)`. -/
def NonEmptyString : Codec := .withMsg (.brand .nonEmptyB) validationErrors.NonEmptyString

/-- Source: `TrimmedString = withMessage(t.brand(t.string, s => s.trim().length === s.length, 'TrimmedString'), ...)`. -/
def TrimmedString : Codec := .withMsg (.brand .trimmedB) validationErrors.TrimmedString

/-- Source: `NonEmptyTrimmedString = t.intersection([TypeString, NonEmptyString, TrimmedString])`. -/
def NonEmptyTrimmedString : Codec :=
  .inter (.ofList [TypeString, NonEmptyString, TrimmedString])

/-- Source: `Max64String = withMessage(t.brand(t.string, s => s.length <= 64, 'Max64String'), () => validationErrors.TooLong)`. -/
def Max64String : Codec := .withMsg (.brand .max64B) validationErrors.TooLong

/-- Source: `Max512String = withMessage(t.brand(t.string, s => s.length <= 512, 'Max512String'), () => validationErrors.TooLong)`. -/
def Max512String : Codec := .withMsg (.brand .max512B) validationErrors.TooLong

/-- Source: `Min4String = withMessage(t.brand(t.string, s => s.length >= 4, 'Min4String'), () => validationErrors.TooShort)`. -/
def Min4String : Codec := .withMsg (.brand .min4B) validationErrors.TooShort

/-- Source: `EmailString = withMessage(t.brand(t.string, isEmail, 'EmailString'), ...)`. -/
def EmailString : Codec := .withMsg (.brand .emailB) validationErrors.EmailString

/-- Source: `PhoneString = withMessage(t.brand(t.string, isMobilePhone, 'PhoneString'), ...)`. -/
def PhoneString : Codec := .withMsg (.brand .phoneB) validationErrors.PhoneString

/-- Source: `String64 = t.intersection([NonEmptyTrimmedString, Max64String])`. -/
def String64 : Codec := .inter (.ofList [NonEmptyTrimmedString, Max64String])

/-- Source: `String512 = t.intersection([NonEmptyTrimmedString, Max512String])`. -/
def String512 : Codec := .inter (.ofList [NonEmptyTrimmedString, Max512String])

/-- Source: `Email = t.intersection([String64, EmailString])`. -/
def Email : Codec := .inter (.ofList [String64, EmailString])

/-- Source: `Password = t.intersection([String512, Min4String])`. -/
def Password : Codec := .inter (.ofList [String512, Min4String])

/-- Source: `Phone = t.intersection([NonEmptyTrimmedString, PhoneString])`. -/
def Phone : Codec := .inter (.ofList [NonEmptyTrimmedString, PhoneString])

/-- Source: `SignUpForm = t.type({ company: String64, email: Email, password: Password, phone: Phone, sendNewsletter: t.boolean })`. -/
def SignUpForm : Codec :=
  .typ (.ofList
    [("company", String64), ("email", Email), ("password", Password),
     ("phone", Phone), ("sendNewsletter", .boolean)])

/-!
The `useForm` controller of `src/unnamed/part_000`.
-/

/-- The `FormErrors` mapping: the possibly-incomplete field-name → message mapping built by
`errorsToFormErrors`, as an insertion-ordered association list (a spread
`{ ...acc, [key]: error.message }` appends the new key).  The message is
optional because `error.message` may be `undefined` for failures not
produced through `withMessage`. -/
abbrev FormErrors := List (String × Option String)

/-- JavaScript `key in acc`. -/
def hasKey (fe : FormErrors) (k : String) : Bool :=
  fe.any (fun p => p.1 == k)

/-- JavaScript `acc[key]` on the mapping: `none` when the key is absent. -/
def lookupFE (fe : FormErrors) (k : String) : Option (Option String) :=
  (fe.find? (fun p => p.1 == k)).map (fun p => p.2)

/-- One step of the `errorsToFormErrors` reduce: read
`error.context[1].key` — reading `context[1]` of a context with fewer than
two entries yields `undefined` in JavaScript and the `.key` access then
throws a `TypeError`, modelled as `none` — then skip the error if its key
is already recorded, otherwise record `error.message` under the key. -/
def e2feStep (acc : FormErrors) (e : VError) : Option FormErrors :=
  match e.context[1]? with
  | none => none
  | some entry =>
    some (if hasKey acc entry.key then acc else acc ++ [(entry.key, e.message)])

/-- The `errorsToFormErrors` projection: reduce `e2feStep` over the error list starting
from the empty mapping; a throw anywhere gives `none`. -/
def errorsToFormErrors (errors : List VError) : Option FormErrors :=
  errors.foldlM e2feStep []

/-- The data fixed at `useForm(codec, initialState)` call time: the schema
codec and the constructor-supplied initial value (held in
`initialStateRef`). -/
structure Form where
  codec : Codec
  initialValue : Value

/-- The mutable controller state: `state` (the current value) and
`formErrors`. -/
structure FormState where
  state : Value
  formErrors : FormErrors
deriving DecidableEq

/-- A field's `onChange` handler: `setState({ ...state, [key]: value })`.
No validation is performed as a side effect. -/
def setFieldValue (s : FormState) (k : String) (v : Value) : FormState :=
  { s with state := objSet s.state k v }

/-- The `reset` operation, `setState(initialStateRef.current)` — the current value goes
back to the constructor-supplied initial value and `formErrors` is left
untouched. -/
def reset (f : Form) (s : FormState) : FormState :=
  { s with state := f.initialValue }

/-- The `validate` operation: run `codec.decode(state)` and fold the result — `onSuccess`
replaces `formErrors` with `{}`, `onFail` replaces it with
`errorsToFormErrors(errors)` — then return the decode result.  When
`errorsToFormErrors` throws (an error context shorter than two entries)
`validate` itself throws instead of returning, modelled as `none`. -/
def validate (env : Env) (f : Form) (s : FormState) :
    Option (FormState × Except (List VError) Value) :=
  match decode env f.codec s.state with
  | .ok v => some ({ s with formErrors := [] }, .ok v)
  | .error errs =>
    match errorsToFormErrors errs with
    | none => none
    | some fe => some ({ s with formErrors := fe }, .error errs)

/-- Source: `TextInputField = t.union([String64, Email, Password, Phone])`. -/
def TextInputField : Codec := .union (.ofList [String64, Email, Password, Phone])

/-- Source: `CheckboxField = t.boolean`. -/
def CheckboxField : Codec := .boolean

/-- The member list of a union codec (`TextInputField.types`). -/
def unionMembers : Codec → List Codec
  | .union cs => cs.toList
  | _ => []

/-- The property list of the schema codec (`codec.props`); `useForm` is
only ever instantiated with a `t.type` codec. -/
def codecProps : Codec → PropList
  | .typ ps => ps
  | _ => .nil

/-- The presentation props a field descriptor exposes.  Text inputs carry
`value: state[key]` (plus `onChange`, `onKeyPress` and `ref`, which are
event closures represented by the constructor itself); checkboxes carry
`isChecked: state[key]` (plus `onChange` and `ref`); any other field kind
gets the empty props object `{}`. -/
inductive FieldProps where
  | textInput (value : Value)
  | checkbox (isChecked : Value)
  | emptyProps
deriving DecidableEq

/-- The `createProps` dispatch: `TextInputField.types.includes(type)` selects text-input
props, `type === CheckboxField` selects checkbox props, anything else gets
`{}`.  io-ts compares codec references; every codec constant involved is
structurally distinct, so structural equality coincides here. -/
def createProps (st : Value) (k : String) (ty : Codec) : FieldProps :=
  if ty ∈ unionMembers TextInputField then .textInput (objGet st k)
  else if ty = CheckboxField then .checkbox (objGet st k)
  else .emptyProps

/-- The text-input `onKeyPress` handler: `if (event.key === 'Enter')
validate()` — returns whether a key press with the given key triggers
`validate`. -/
def textInputKeyTriggersValidate (key : String) : Bool :=
  key == "Enter"

/-- One entry of the derived `fields` record. -/
structure FieldDescr where
  props : FieldProps
  isInvalid : Bool
  error : String
deriving DecidableEq

/-- JavaScript `formErrors[key] || ''`. -/
def jsOrEmpty : Option (Option String) → String
  | some (some m) => m
  | _ => ""

/-- One field's derived descriptor: `props`, `isInvalid: key in formErrors`,
`error: formErrors[key] || ''`. -/
def fieldEntry (st : Value) (fe : FormErrors) (k : String) (ty : Codec) : FieldDescr :=
  { props := createProps st k ty
    isInvalid := hasKey fe k
    error := jsOrEmpty (lookupFE fe k) }

/-- The derived `fields` record: one descriptor per declared schema
property, in declaration order. -/
def fieldsOf (f : Form) (s : FormState) : List (String × FieldDescr) :=
  (codecProps f.codec).toList.map (fun p => (p.1, fieldEntry s.state s.formErrors p.1 p.2))

/-!
The focus-first-invalid-field side effect of a failing `validate`.
-/

/-- The `current` value of an element ref: `unmounted` (JavaScript `undefined`) before the element is
mounted (`useRef()` initialises to `undefined`), `elem pos` a mounted DOM
element at document position `pos`, `nonElem` a non-element object wired
into the ref. -/
inductive RefVal where
  | unmounted
  | elem (pos : Int)
  | nonElem
deriving DecidableEq

/-- The `isDOMElement` refinement: `'nodeType' in a && a.nodeType ===
Node.ELEMENT_NODE`.  The `in` operator throws a `TypeError` when its
right-hand side is `undefined` (or `null`), modelled as `.error ()`. -/
def isDOMElement : RefVal → Except Unit Bool
  | .unmounted => .error ()
  | .elem _ => .ok true
  | .nonElem => .ok false

/-- The sort comparator passed to `Array.prototype.sort`: return `0`
unless both are DOM elements, else order by `compareDocumentPosition`
(document order). -/
def refComparator (a b : RefVal) : Except Unit Int := do
  let da ← isDOMElement a
  if !da then return 0
  let db ← isDOMElement b
  if !db then return 0
  match a, b with
  | .elem pa, .elem pb => return (if pa < pb then -1 else if pb < pa then 1 else 0)
  | _, _ => return 0

/-- Insert into a sorted list, calling the comparator; a comparator throw
propagates. -/
def insertByM (x : RefVal) : List RefVal → Except Unit (List RefVal)
  | [] => .ok [x]
  | y :: ys => do
    let c ← refComparator x y
    if c ≤ 0 then return x :: y :: ys
    else return y :: (← insertByM x ys)

/-- JavaScript `Array.prototype.sort` with a user comparator.  The exact sequence of
comparator calls is engine-specific; any comparison sort of a list of at
least two elements invokes the comparator at least once, which is the only
property the development relies on.  Modelled as an insertion sort: a
singleton list is returned without calling the comparator, and sorting two
elements calls it exactly once. -/
def jsSortM : List RefVal → Except Unit (List RefVal)
  | [] => .ok []
  | x :: xs => do insertByM x (← jsSortM xs)

/-- The `focusFirstInvalidField` side effect: map the `formErrors` keys to their refs'
`current` values, sort by document position, take `[0].current`, and if it
is truthy with a `focus` function, call `focus()`.  The result is the
document position of the focused element, `none` when nothing is focused
(the silent no-op path), and `.error ()` when the run throws — either in
the comparator or because `formErrors` is empty and `[0]` is `undefined`
(unreachable from `onFail`, which only runs with a non-empty error
list). -/
def focusFirstInvalidField (refs : String → RefVal) (fe : FormErrors) :
    Except Unit (Option Int) := do
  let sorted ← jsSortM (fe.map (fun p => refs p.1))
  match sorted with
  | [] => .error ()
  | first :: _ =>
    match first with
    | .elem pos => return some pos
    | _ => return none

/-!
Specification-side helpers used to characterise the composite-codec
semantics, and the concrete schemas and values the testable properties
are evaluated on.
-/

deriving instance DecidableEq for Except

/-- The failure list of a decode result (empty on success). -/
def errsOf : Except (List VError) Value → List VError
  | .error es => es
  | .ok _ => []

/-- The success value of a decode result. -/
def okOf : Except (List VError) Value → Option Value
  | .ok u => some u
  | .error _ => none

/-- Does `decode` accept the value? -/
def accepts (env : Env) (c : Codec) (v : Value) : Bool :=
  match decode env c v with
  | .ok _ => true
  | .error _ => false

/-- The failures a composite starting at member index `i` collects from
running every member independently on the input: each failing member's
failures, prefixed with the member's index key, concatenated in member
order. -/
def memberErrs (env : Env) (v : Value) : List Codec → Nat → List VError
  | [], _ => []
  | c :: rest, i =>
    (errsOf (validateC env c v)).map (withCtx (toString i)) ++ memberErrs env v rest (i + 1)

/-- The outputs of the accepting members, in member order. -/
def memberOks (env : Env) (v : Value) (cs : List Codec) : List Value :=
  cs.filterMap (fun c => okOf (validateC env c v))

/-- The output of the first member that accepts the input, in declared
order. -/
def firstOk (env : Env) (v : Value) (cs : List Codec) : Option Value :=
  cs.findSome? (fun c => okOf (validateC env c v))

/-- Does the error's absolute context name `k` as the top-level field —
i.e. is `error.context[1].key` equal to `k`? -/
def errKeyIs (k : String) (e : VError) : Bool :=
  match e.context[1]? with
  | some entry => entry.key == k
  | none => false

/-! Every union inside the codec has at least one member
(`unionsNonempty`).  Every codec the repository declares satisfies this;
it rules out the degenerate `t.union([])`, whose decode fails with an
*empty* failure list. -/
mutual
def unionsNonempty : Codec → Bool
  | .str => true
  | .boolean => true
  | .brand _ => true
  | .withMsg c _ => unionsNonempty c
  | .inter cs => unionsNonemptyL cs
  | .union cs =>
    (match cs with
     | .nil => false
     | .cons _ _ => true) && unionsNonemptyL cs
  | .typ ps => unionsNonemptyP ps

def unionsNonemptyL : CodecList → Bool
  | .nil => true
  | .cons c rest => unionsNonempty c && unionsNonemptyL rest

def unionsNonemptyP : PropList → Bool
  | .nil => true
  | .cons _ c rest => unionsNonempty c && unionsNonemptyP rest
end

/-- An arbitrary environment, used where the decode under scrutiny never
consults the email/phone predicates or where their value is irrelevant. -/
def envFalse : Env := ⟨fun _ => false, fun _ => false⟩

/-- An environment agreeing with the `validator` package on the concrete
strings of the end-to-end scenario: `'a@b.com'` is an email,
`'+14155552671'` is a mobile phone number, and the empty string is
neither. -/
def envW : Env := ⟨fun s => s == "a@b.com", fun s => s == "+14155552671"⟩

/-- The initial value of the sign-up scenario:
`{company:'', email:'', password:'', phone:'', sendNewsletter:false}`. -/
def sInit : Value :=
  .vObj (.cons "company" (.vStr "") (.cons "email" (.vStr "")
    (.cons "password" (.vStr "") (.cons "phone" (.vStr "")
      (.cons "sendNewsletter" (.vBool false) .nil)))))

/-- The sign-up form controller: `useForm(SignUpForm, initialState)`. -/
def signUpF : Form := ⟨SignUpForm, sInit⟩

/-- The `FormErrors` an immediate `validate()` of the initial sign-up value
produces: every text field empty, hence the `NonEmptyString` message;
`sendNewsletter` absent. -/
def feInit : FormErrors :=
  [("company", some validationErrors.NonEmptyString),
   ("email", some validationErrors.NonEmptyString),
   ("password", some validationErrors.NonEmptyString),
   ("phone", some validationErrors.NonEmptyString)]

/-- The raw failure list of the immediate `validate()` of the initial
sign-up value (under `envFalse`; the empty string satisfies neither
external predicate). -/
def sInitErrs : List VError := errsOf (decode envFalse SignUpForm sInit)

/-- The sign-up value after the four edits of the end-to-end scenario. -/
def sGood : Value :=
  .vObj (.cons "company" (.vStr "Acme") (.cons "email" (.vStr "a@b.com")
    (.cons "password" (.vStr "abcd") (.cons "phone" (.vStr "+14155552671")
      (.cons "sendNewsletter" (.vBool false) .nil)))))

/-- A two-field schema `{email: Email, phone: Phone}` used for the
field-error-projection property. -/
def twoFieldCodec : Codec := .typ (.ofList [("email", Email), ("phone", Phone)])

/-- An input failing both fields, with several nested failures each:
`email` is not even a string (five raw failures), `phone` is untrimmed and
not a phone number (two raw failures). -/
def twoFieldInit : Value :=
  .vObj (.cons "email" (.vNum 123) (.cons "phone" (.vStr " x ") .nil))

/-- The controller for the two-field schema. -/
def twoFieldForm : Form := ⟨twoFieldCodec, twoFieldInit⟩

/-- The raw failure list of decoding the two-field input. -/
def twoFieldErrs : List VError := errsOf (decode envFalse twoFieldCodec twoFieldInit)

/-- The projected `FormErrors` of the two-field input: exactly one message
per field, the field's first raw failure's message. -/
def twoFieldFE : FormErrors :=
  [("email", some validationErrors.TypeString),
   ("phone", some validationErrors.TrimmedString)]

/-- A one-checkbox schema used as a minimal success witness. -/
def boolForm : Form :=
  ⟨.typ (.ofList [("ok", .boolean)]), .vObj (.cons "ok" (.vBool true) .nil)⟩

/-- Left-biased choice on lookup results, used to state how the
`errorsToFormErrors` reduce treats an accumulator entry as taking
precedence over the remaining errors. -/
def orFe (a b : Option (Option String)) : Option (Option String) :=
  match a with
  | some m => some m
  | none => b

/-!
Basic lemmas about the `FormErrors` association-list operations and the
controller operations.
-/

theorem hasKey_iff_lookup (fe : FormErrors) (k : String) :
    hasKey fe k = true ↔ (lookupFE fe k).isSome := by
  induction fe with
  | nil => simp [hasKey, lookupFE]
  | cons p r ih =>
    by_cases h : p.1 == k
    · simp [hasKey, lookupFE, List.find?_cons, h, List.any_cons]
    · simp only [hasKey, lookupFE, List.find?_cons, h, List.any_cons] at ih ⊢
      simpa using ih

theorem hasKey_false_notMem (fe : FormErrors) (k : String) :
    hasKey fe k = false ↔ k ∉ fe.map Prod.fst := by
  rw [← Bool.not_eq_true]
  simp [hasKey, List.any_eq_true, List.mem_map, beq_iff_eq]

theorem lookupFE_append_single (fe : FormErrors) (k2 : String) (m : Option String)
    (k : String) :
    lookupFE (fe ++ [(k2, m)]) k =
      orFe (lookupFE fe k) (if k2 == k then some m else none) := by
  induction fe with
  | nil => by_cases h : k2 == k <;> simp [lookupFE, List.find?, h, orFe]
  | cons p r ih =>
    by_cases h : p.1 == k
    · simp [lookupFE, List.find?_cons, h, orFe]
    · simp only [lookupFE, List.find?_cons, h, List.cons_append] at ih ⊢
      simpa [lookupFE] using ih

theorem validate_keeps_state (env : Env) (f : Form) (s : FormState)
    (p : FormState × Except (List VError) Value)
    (h : validate env f s = some p) : p.1.state = s.state := by
  unfold validate at h
  split at h
  · injection h with h
    rw [← h]
  · split at h
    · cases h
    · injection h with h
      rw [← h]

/-- C4.  A successful whole-object decode makes `validate` replace the
stored `FormErrors` with the empty mapping — whatever errors a previous
failed validation left there — and return the decoded value. -/
theorem C4_validate_success_clears (env : Env) (f : Form) (s : FormState) (v : Value)
    (h : decode env f.codec s.state = .ok v) :
    validate env f s = some ({ s with formErrors := [] }, .ok v) := by
  unfold validate
  rw [h]

/-- Witness for C4: the one-checkbox form with a stale error from an
earlier failing validation; a succeeding `validate` clears it. -/
theorem C4_validate_success_clears_witness :
    validate envFalse boolForm ⟨boolForm.initialValue, [("ok", some "stale")]⟩ =
      some (⟨boolForm.initialValue, []⟩, .ok boolForm.initialValue) :=
  C4_validate_success_clears envFalse boolForm
    ⟨boolForm.initialValue, [("ok", some "stale")]⟩ boolForm.initialValue (by decide)

/-- C5.  `reset` restores `currentValue` to the constructor-supplied
initial value — undoing every prior `setFieldValue`, so that resetting an
edited state equals resetting the unedited one — and leaves `formErrors`
untouched; a `validate` after `reset` therefore evaluates the restored
initial value, not the edited one. -/
theorem C5_reset (f : Form) (s : FormState) :
    (reset f s).state = f.initialValue ∧
    (reset f s).formErrors = s.formErrors ∧
    (∀ k v, reset f (setFieldValue s k v) = reset f s) ∧
    (∀ env k v,
      validate env f (reset f (setFieldValue s k v)) =
        validate env f ⟨f.initialValue, s.formErrors⟩) := by
  refine ⟨rfl, rfl, fun k v => rfl, fun env k v => rfl⟩

/-- C7.  `validate` is idempotent: it never touches `state`, and running it
again from the state it produced yields the same stored `FormErrors` and
the same decode result. -/
theorem C7_validate_idempotent (env : Env) (f : Form) (s : FormState)
    (p : FormState × Except (List VError) Value)
    (h : validate env f s = some p) : validate env f p.1 = some p := by
  have hst : p.1.state = s.state := validate_keeps_state env f s p h
  unfold validate at h ⊢
  rw [hst]
  split at h
  next v heq =>
    injection h with h
    rw [← h]
  next errs heq =>
    split at h
    next he => cases h
    next fe he =>
      injection h with h
      rw [← h]

/-!
The characterisation of `errorsToFormErrors`: first failure per top-level
field wins, and the reduce faults exactly when some error's context is
shorter than two entries.
-/

theorem e2fe_aux (errs : List VError) : ∀ (acc fe : FormErrors),
    List.foldlM e2feStep acc errs = some fe →
    ((acc.map Prod.fst).Nodup → (fe.map Prod.fst).Nodup) ∧
    ∀ k, lookupFE fe k =
      orFe (lookupFE acc k) ((errs.find? (errKeyIs k)).map VError.message) := by
  induction errs with
  | nil =>
    intro acc fe h
    simp only [List.foldlM_nil] at h
    injection h with h
    subst h
    refine ⟨fun hn => hn, fun k => ?_⟩
    cases hl : lookupFE acc k <;> simp [orFe, hl]
  | cons e errs ih =>
    intro acc fe h
    simp only [List.foldlM_cons] at h
    cases hc : e.context[1]? with
    | none =>
      have hstep : e2feStep acc e = none := by simp [e2feStep, hc]
      rw [hstep] at h
      simp at h
    | some entry =>
      have hstep : e2feStep acc e =
          some (if hasKey acc entry.key then acc else acc ++ [(entry.key, e.message)]) := by
        simp [e2feStep, hc]
      rw [hstep] at h
      simp only [Option.bind_eq_bind, Option.some_bind] at h
      by_cases hk : hasKey acc entry.key
      · rw [if_pos hk] at h
        obtain ⟨hnd, hlk⟩ := ih acc fe h
        refine ⟨hnd, fun k => ?_⟩
        rw [hlk k, List.find?_cons]
        by_cases hkk : errKeyIs k e
        · have hkeq : entry.key = k := by
            unfold errKeyIs at hkk
            rw [hc] at hkk
            exact beq_iff_eq.mp (by simpa using hkk)
          subst hkeq
          have hs : (lookupFE acc entry.key).isSome :=
            (hasKey_iff_lookup acc entry.key).mp hk
          cases hl : lookupFE acc entry.key with
          | none => rw [hl] at hs; cases hs
          | some m => simp [orFe, hl, hkk]
        · have hkkf : errKeyIs k e = false := by simpa using hkk
          simp only [hkkf, Bool.false_eq_true, if_false]
      · rw [if_neg hk] at h
        obtain ⟨hnd, hlk⟩ := ih (acc ++ [(entry.key, e.message)]) fe h
        have hkf : hasKey acc entry.key = false := by simpa using hk
        have hnm : entry.key ∉ acc.map Prod.fst :=
          (hasKey_false_notMem acc entry.key).mp hkf
        have hlkn : lookupFE acc entry.key = none := by
          cases hl : lookupFE acc entry.key with
          | none => rfl
          | some m =>
            exfalso
            apply hk
            rw [hasKey_iff_lookup, hl]
            rfl
        constructor
        · intro hacc
          apply hnd
          simp [List.nodup_append, hacc, hnm]
        · intro k
          rw [hlk k, lookupFE_append_single, List.find?_cons]
          by_cases hkk : errKeyIs k e
          · have hkeq : entry.key = k := by
              unfold errKeyIs at hkk
              rw [hc] at hkk
              exact beq_iff_eq.mp (by simpa using hkk)
            subst hkeq
            have hkkt : errKeyIs entry.key e = true := hkk
            simp [orFe, hlkn, hkkt]
          · have hkkf : errKeyIs k e = false := by simpa using hkk
            have hkne : (entry.key == k) = false := by
              unfold errKeyIs at hkkf
              rw [hc] at hkkf
              simpa using hkkf
            simp only [hkkf, hkne, Bool.false_eq_true, if_false]
            cases hl : lookupFE acc k <;> simp [orFe, hl]

/-- C2.  When `validate` fails, the stored `FormErrors` has pairwise
distinct field names — one authoritative message per field — and its entry
for a field `k` is exactly the message of the *first* raw failure whose
top-level path segment (`error.context[1].key`) is `k`; later failures for
an already-recorded field are discarded.  Evaluated on the two-field
schema `{email: Email, phone: Phone}` with `email` failing five nested
constraints and `phone` two: the result has exactly the keys `email` and
`phone`, each carrying its field's first raw failure's message. -/
theorem C2_formErrors_projection (env : Env) (f : Form) (s s2 : FormState)
    (errs : List VError)
    (h : validate env f s = some (s2, .error errs)) :
    ((s2.formErrors.map Prod.fst).Nodup ∧
      ∀ k, lookupFE s2.formErrors k = (errs.find? (errKeyIs k)).map VError.message) ∧
    validate envFalse twoFieldForm ⟨twoFieldInit, []⟩ =
      some (⟨twoFieldInit, twoFieldFE⟩, .error twoFieldErrs) := by
  constructor
  · unfold validate at h
    split at h
    next v heq => simp at h
    next errsd heq =>
      split at h
      next he => cases h
      next fe he =>
        simp only [Option.some.injEq, Prod.mk.injEq, Except.error.injEq] at h
        obtain ⟨h1, h2⟩ := h
        subst h2
        rw [← h1]
        unfold errorsToFormErrors at he
        obtain ⟨hnd, hlk⟩ := e2fe_aux errsd [] fe he
        refine ⟨hnd (by simp), fun k => ?_⟩
        rw [hlk k]
        simp [lookupFE, orFe]
  · decide

theorem e2fe_isSome_aux (errs : List VError) : ∀ (acc : FormErrors),
    (List.foldlM e2feStep acc errs).isSome ↔ ∀ e ∈ errs, 2 ≤ e.context.length := by
  induction errs with
  | nil => intro acc; simp
  | cons e errs ih =>
    intro acc
    simp only [List.foldlM_cons]
    cases hc : e.context[1]? with
    | none =>
      have hstep : e2feStep acc e = none := by simp [e2feStep, hc]
      have hlen : e.context.length ≤ 1 := by
        have := List.getElem?_eq_none_iff.mp hc
        omega
      rw [hstep]
      simp only [Option.bind_eq_bind, Option.none_bind]
      constructor
      · intro hsome; cases hsome
      · intro hall
        exfalso
        have := hall e (by simp)
        omega
    | some entry =>
      have hstep : e2feStep acc e =
          some (if hasKey acc entry.key then acc else acc ++ [(entry.key, e.message)]) := by
        simp [e2feStep, hc]
      have hlen : 1 < e.context.length := by
        by_contra hle
        rw [List.getElem?_eq_none_iff.mpr (by omega)] at hc
        cases hc
      rw [hstep]
      simp only [Option.bind_eq_bind, Option.some_bind]
      rw [ih]
      constructor
      · intro hall e2 he2
        rcases List.mem_cons.mp he2 with rfl | hmem
        · omega
        · exact hall e2 hmem
      · intro hall e2 he2
        exact hall e2 (List.mem_cons_of_mem e he2)

/-- C10.  `errorsToFormErrors` returns a mapping exactly when every error
in its input has a context of at least two entries; it reads
`error.context[1].key`, so an error whose context is shorter — as when the
whole-value decode fails at the root because the current value is not an
object — makes the access fault (modelled as `none`) instead of returning
a mapping.  Decoding the non-object `123` against `SignUpForm` produces
exactly such a single root error with a one-entry context. -/
theorem C10_errorsToFormErrors_partiality :
    (∀ errs : List VError,
      (errorsToFormErrors errs).isSome ↔ ∀ e ∈ errs, 2 ≤ e.context.length) ∧
    decode envFalse SignUpForm (.vNum 123) = .error [⟨.vNum 123, [⟨""⟩], none⟩] ∧
    errorsToFormErrors [⟨.vNum 123, [⟨""⟩], none⟩] = none := by
  refine ⟨fun errs => ?_, by decide, by decide⟩
  unfold errorsToFormErrors
  exact e2fe_isSome_aux errs []

/-- Witness for C2: the two-field run, with the hypothesis discharged by
evaluation. -/
theorem C2_formErrors_projection_witness :
    (((⟨twoFieldInit, twoFieldFE⟩ : FormState).formErrors.map Prod.fst).Nodup ∧
      ∀ k, lookupFE (⟨twoFieldInit, twoFieldFE⟩ : FormState).formErrors k =
        (twoFieldErrs.find? (errKeyIs k)).map VError.message) ∧
    validate envFalse twoFieldForm ⟨twoFieldInit, []⟩ =
      some (⟨twoFieldInit, twoFieldFE⟩, .error twoFieldErrs) :=
  C2_formErrors_projection envFalse twoFieldForm ⟨twoFieldInit, []⟩
    ⟨twoFieldInit, twoFieldFE⟩ twoFieldErrs (by decide)

/-- Witness for C7: revalidating the failed initial sign-up state
reproduces the same errors and result. -/
theorem C7_validate_idempotent_witness :
    validate envFalse signUpF ⟨sInit, feInit⟩ =
      some (⟨sInit, feInit⟩, .error sInitErrs) :=
  C7_validate_idempotent envFalse signUpF ⟨sInit, []⟩
    (⟨sInit, feInit⟩, .error sInitErrs) (by decide)

/-!
The characterisation of the composite codecs: `t.intersection` runs every
member and accumulates failures, `t.union` returns the first success.
-/

theorem interGo_eq (env : Env) (v : Value) :
    ∀ (cl : CodecList) (i : Nat),
      interGo env cl v i = (memberErrs env v cl.toList i, memberOks env v cl.toList)
  | .nil, i => by
    simp [interGo, CodecList.toList, memberErrs, memberOks]
  | .cons c r, i => by
    have ih := interGo_eq env v r (i + 1)
    cases hv : validateC env c v with
    | ok u =>
      simp [interGo, hv, ih, memberErrs, memberOks, errsOf, okOf,
        CodecList.toList, List.filterMap_cons]
    | error es =>
      simp [interGo, hv, ih, memberErrs, memberOks, errsOf, okOf,
        CodecList.toList, List.filterMap_cons]

theorem unionGo_eq (env : Env) (v : Value) :
    ∀ (cl : CodecList) (i : Nat),
      unionGo env cl v i =
        (match firstOk env v cl.toList with
         | some u => .ok u
         | none => .error (memberErrs env v cl.toList i))
  | .nil, i => by
    simp [unionGo, CodecList.toList, firstOk, memberErrs]
  | .cons c r, i => by
    have ih := unionGo_eq env v r (i + 1)
    cases hv : validateC env c v with
    | ok u =>
      simp [unionGo, hv, firstOk, okOf, CodecList.toList, List.findSome?_cons]
    | error es =>
      have hfc : firstOk env v (c :: r.toList) = firstOk env v r.toList := by
        simp [firstOk, List.findSome?_cons, okOf, hv]
      simp only [unionGo, hv]
      rw [ih]
      simp only [CodecList.toList]
      rw [hfc]
      cases hfo : firstOk env v r.toList with
      | some u => simp
      | none => simp [memberErrs, errsOf, hv]

theorem accepts_iff_ok (env : Env) (c : Codec) (v : Value) :
    accepts env c v = true ↔ ∃ u, validateC env c v = .ok u := by
  unfold accepts decode
  cases h : validateC env c v <;> simp [h]

theorem firstOk_isSome_iff (env : Env) (v : Value) :
    ∀ (cs : List Codec),
      (firstOk env v cs).isSome ↔ ∃ c ∈ cs, ∃ u, validateC env c v = .ok u := by
  intro cs
  induction cs with
  | nil => simp [firstOk]
  | cons c rest ih =>
    cases hv : validateC env c v with
    | ok u => simp [firstOk, List.findSome?_cons, okOf, hv]
    | error es =>
      simp only [firstOk, List.findSome?_cons, okOf, hv] at ih ⊢
      simp [ih, hv]

/-- A codec all of whose unions are non-empty never fails with an empty
failure list: every leaf failure and every `withMessage` failure is a
singleton, and the composite failure branches are guarded by
non-emptiness checks except for the degenerate empty union. -/
theorem wf_error_ne_nil (env : Env) :
    ∀ (c : Codec), unionsNonempty c = true →
      ∀ (v : Value) (es : List VError), validateC env c v = .error es → es ≠ []
  | .str, _, v, es, heq => by
    unfold validateC at heq
    split at heq
    · cases heq
    · injection heq with h
      rw [← h]
      simp
  | .boolean, _, v, es, heq => by
    unfold validateC at heq
    split at heq
    · cases heq
    · injection heq with h
      rw [← h]
      simp
  | .brand b, _, v, es, heq => by
    unfold validateC at heq
    split at heq
    · split at heq
      · cases heq
      · injection heq with h
        rw [← h]
        simp
    · injection heq with h
      rw [← h]
      simp
  | .withMsg c m, _, v, es, heq => by
    unfold validateC at heq
    split at heq
    · cases heq
    · injection heq with h
      rw [← h]
      simp
  | .inter cs, _, v, es, heq => by
    unfold validateC at heq
    split at heq
    next errs us hgo =>
      split at heq
      · cases heq
      next hni =>
        injection heq with h
        rw [← h]
        simpa using hni
  | .union .nil, hne, v, es, heq => by
    simp [unionsNonempty] at hne
  | .union (.cons ch rest), hne, v, es, heq => by
    have hch : unionsNonempty ch = true := by
      unfold unionsNonempty unionsNonemptyL at hne
      simp [Bool.and_eq_true] at hne
      exact hne.1
    unfold validateC unionGo at heq
    split at heq
    · cases heq
    next es1 hv1 =>
      split at heq
      · cases heq
      next es2 hv2 =>
        injection heq with h
        rw [← h]
        have h1 : es1 ≠ [] := wf_error_ne_nil env ch hch v es1 hv1
        simp [h1]
  | .typ ps, _, v, es, heq => by
    unfold validateC at heq
    split at heq
    · split at heq
      next errs a hgo =>
        split at heq
        · cases heq
        next hni =>
          injection heq with h
          rw [← h]
          simpa using hni
    · injection heq with h
      rw [← h]
      simp

theorem unionsNonemptyL_iff :
    ∀ (cl : CodecList),
      unionsNonemptyL cl = true ↔ ∀ c ∈ cl.toList, unionsNonempty c = true
  | .nil => by simp [unionsNonemptyL, CodecList.toList]
  | .cons c r => by
    simp [unionsNonemptyL, CodecList.toList, Bool.and_eq_true,
      unionsNonemptyL_iff r, List.forall_mem_cons]

theorem memberErrs_nil_iff (env : Env) (v : Value) :
    ∀ (cs : List Codec) (i : Nat),
      (∀ c ∈ cs, unionsNonempty c = true) →
      (memberErrs env v cs i = [] ↔ ∀ c ∈ cs, ∃ u, validateC env c v = .ok u) := by
  intro cs
  induction cs with
  | nil => simp [memberErrs]
  | cons c rest ih =>
    intro i hwf
    have hwfc := hwf c (by simp)
    have hwfr : ∀ c2 ∈ rest, unionsNonempty c2 = true :=
      fun c2 hc2 => hwf c2 (List.mem_cons_of_mem c hc2)
    cases hv : validateC env c v with
    | ok u =>
      simp only [memberErrs, errsOf, hv, List.map_nil, List.nil_append]
      rw [ih (i + 1) hwfr]
      simp [hv]
    | error es =>
      have hne : es ≠ [] := wf_error_ne_nil env c hwfc v es hv
      simp only [memberErrs, errsOf, hv]
      constructor
      · intro h
        exfalso
        rcases List.append_eq_nil.mp h with ⟨hmap, -⟩
        exact hne (List.map_eq_nil_iff.mp hmap)
      · intro h
        rcases h c (by simp) with ⟨u, hu⟩
        rw [hv] at hu
        cases hu

/-- Counterexample to C1 as stated: decoding the non-string `123` against
`intersection([TypeString, NonEmptyString])` yields TWO failures, not
exactly one — io-ts `t.intersection` runs every member and accumulates
all failing members' errors, so `NonEmptyString` (whose `withMessage`
wraps a refinement of `t.string`) also fails; only the projection to
`FormErrors` later discards the second failure. -/
theorem C1_counterexample :
    decode envFalse (.inter (.ofList [TypeString, NonEmptyString])) (.vNum 123) =
      .error [⟨.vNum 123, [⟨""⟩, ⟨"0"⟩], some validationErrors.TypeString⟩,
              ⟨.vNum 123, [⟨""⟩, ⟨"1"⟩], some validationErrors.NonEmptyString⟩] ∧
    (errsOf (decode envFalse (.inter (.ofList [TypeString, NonEmptyString]))
        (.vNum 123))).length = 2 ∧
    ¬(errsOf (decode envFalse (.inter (.ofList [TypeString, NonEmptyString]))
        (.vNum 123))).length = 1 := by
  decide

/-- C1 (amended).  For every intersection constraint (over members whose
unions are non-empty, as all of the repository's are), decode succeeds iff
every member accepts the value; members are evaluated left-to-right but
evaluation does NOT short-circuit: every failing member contributes its
failures, concatenated in member order (the first failing member's failure
first), which is what the composite rejects with. -/
theorem C1_intersection_semantics (env : Env) (cs : CodecList) (v : Value)
    (hu : unionsNonemptyL cs = true) :
    ((accepts env (.inter cs) v = true) ↔ ∀ c ∈ cs.toList, accepts env c v = true) ∧
    validateC env (.inter cs) v =
      (if (memberErrs env v cs.toList 0).isEmpty
       then .ok (mergeAll v (memberOks env v cs.toList))
       else .error (memberErrs env v cs.toList 0)) := by
  have heq : validateC env (.inter cs) v =
      (if (memberErrs env v cs.toList 0).isEmpty
       then .ok (mergeAll v (memberOks env v cs.toList))
       else .error (memberErrs env v cs.toList 0)) := by
    simp only [validateC, interGo_eq env v cs 0]
  have hwf : ∀ c ∈ cs.toList, unionsNonempty c = true := (unionsNonemptyL_iff cs).mp hu
  have hnil := memberErrs_nil_iff env v cs.toList 0 hwf
  refine ⟨?_, heq⟩
  constructor
  · rw [accepts_iff_ok]
    rintro ⟨u, hok⟩
    rw [heq] at hok
    by_cases hie : (memberErrs env v cs.toList 0).isEmpty
    · intro c hc
      rw [accepts_iff_ok]
      exact (hnil.mp (List.isEmpty_iff.mp hie)) c hc
    · rw [if_neg hie] at hok
      cases hok
  · intro hall
    rw [accepts_iff_ok]
    have hmem : memberErrs env v cs.toList 0 = [] :=
      hnil.mpr (fun c hc => (accepts_iff_ok env c v).mp (hall c hc))
    rw [heq, hmem]
    exact ⟨mergeAll v (memberOks env v cs.toList), by simp⟩

/-- Witness for C1's amended theorem at the claim's own example. -/
theorem C1_intersection_semantics_witness :
    ((accepts envFalse (.inter (.ofList [TypeString, NonEmptyString])) (.vNum 123) = true ↔
        ∀ c ∈ (CodecList.ofList [TypeString, NonEmptyString]).toList,
          accepts envFalse c (.vNum 123) = true) ∧
      validateC envFalse (.inter (.ofList [TypeString, NonEmptyString])) (.vNum 123) =
        (if (memberErrs envFalse (.vNum 123)
              (CodecList.ofList [TypeString, NonEmptyString]).toList 0).isEmpty
         then .ok (mergeAll (.vNum 123)
            (memberOks envFalse (.vNum 123)
              (CodecList.ofList [TypeString, NonEmptyString]).toList))
         else .error (memberErrs envFalse (.vNum 123)
            (CodecList.ofList [TypeString, NonEmptyString]).toList 0))) :=
  C1_intersection_semantics envFalse (.ofList [TypeString, NonEmptyString]) (.vNum 123)
    (by decide)

/-- C8.  For every union constraint, decode succeeds iff some member
accepts, the result being the output of the first accepting member in
declared order; when every member rejects, decode fails with the
aggregate of all members' failures, concatenated in member order.  In
particular the repository's `TextInputField` union over `String64`,
`Email`, `Password` and `Phone` decodes the valid 10-character plain
string `'abcdefghij'` successfully via its first matching member. -/
theorem C8_union_semantics (env : Env) (cs : CodecList) (v : Value) :
    ((accepts env (.union cs) v = true) ↔ ∃ c ∈ cs.toList, accepts env c v = true) ∧
    validateC env (.union cs) v =
      (match firstOk env v cs.toList with
       | some u => .ok u
       | none => .error (memberErrs env v cs.toList 0)) ∧
    decode env TextInputField (.vStr "abcdefghij") = .ok (.vStr "abcdefghij") := by
  have heq : validateC env (.union cs) v =
      (match firstOk env v cs.toList with
       | some u => .ok u
       | none => .error (memberErrs env v cs.toList 0)) := by
    simp only [validateC]
    exact unionGo_eq env v cs 0
  refine ⟨?_, heq, ?_⟩
  · constructor
    · rw [accepts_iff_ok]
      rintro ⟨u, hok⟩
      rw [heq] at hok
      cases hfo : firstOk env v cs.toList with
      | some w =>
        have hs : (firstOk env v cs.toList).isSome := by rw [hfo]; rfl
        obtain ⟨c, hc, u2, hu2⟩ := (firstOk_isSome_iff env v cs.toList).mp hs
        exact ⟨c, hc, (accepts_iff_ok env c v).mpr ⟨u2, hu2⟩⟩
      | none => rw [hfo] at hok; cases hok
    · rintro ⟨c, hc, hac⟩
      obtain ⟨u, hu⟩ := (accepts_iff_ok env c v).mp hac
      have hs : (firstOk env v cs.toList).isSome :=
        (firstOk_isSome_iff env v cs.toList).mpr ⟨c, hc, u, hu⟩
      rw [accepts_iff_ok, heq]
      cases hfo : firstOk env v cs.toList with
      | some w => exact ⟨w, rfl⟩
      | none => rw [hfo] at hs; cases hs
  · simp [decode, TextInputField, validateC, unionGo, interGo, String64,
      NonEmptyTrimmedString, TypeString, NonEmptyString, TrimmedString, Max64String,
      CodecList.ofList, brandPredOf, jsLength, jsTrim, jsWhitespace, mergeAll,
      validationErrors.TypeString, validationErrors.NonEmptyString,
      validationErrors.TrimmedString, validationErrors.TooLong]

/-- C6 evaluation.  With two invalid fields whose element refs are still
unmounted (`current === undefined`), the focus request of a failing
`validate` THROWS: the sort comparator evaluates `'nodeType' in
undefined`, a `TypeError` — it is not the silent no-op the specification
requires, and the throw propagates so `validate` does not return its
result.  With a single invalid unmounted field the comparator is never
called and the focus request is the silent no-op the claim describes. -/
theorem C6_focus_throws_on_two_unmounted_refs :
    focusFirstInvalidField (fun _ => .unmounted)
      [("email", some validationErrors.NonEmptyString),
       ("phone", some validationErrors.NonEmptyString)] = .error () ∧
    focusFirstInvalidField (fun _ => .unmounted)
      [("email", some validationErrors.NonEmptyString)] = .ok none := by
  decide

/-- C9.  The derived field descriptor dispatches structurally on the
field's constraint: each member of the `TextInputField` family
(`String64`, `Email`, `Password`, `Phone`) gets text-input props carrying
the current value `state[key]` (their `onKeyPress` handler triggers
`validate` exactly on the Enter key); the `Boolean` codec gets checkbox
props carrying `state[key]` as the checked flag; any other constraint gets
the empty props object.  In every case `isInvalid` holds exactly when the
field name is recorded in `FormErrors`, and `error` is the recorded
message or the empty string.  The sign-up schema derives text inputs for
its four string fields and a checkbox for `sendNewsletter`. -/
theorem C9_field_dispatch (st : Value) (fe : FormErrors) (k : String) (ty : Codec)
    (hn1 : ty ∉ unionMembers TextInputField) (hn2 : ty ≠ CheckboxField) :
    (createProps st k String64 = .textInput (objGet st k) ∧
     createProps st k Email = .textInput (objGet st k) ∧
     createProps st k Password = .textInput (objGet st k) ∧
     createProps st k Phone = .textInput (objGet st k)) ∧
    createProps st k CheckboxField = .checkbox (objGet st k) ∧
    createProps st k ty = .emptyProps ∧
    (textInputKeyTriggersValidate "Enter" = true ∧
     ∀ key2, textInputKeyTriggersValidate key2 = true → key2 = "Enter") ∧
    ((fieldEntry st fe k ty).isInvalid = true ↔ (lookupFE fe k).isSome) ∧
    (∀ m, lookupFE fe k = some (some m) → (fieldEntry st fe k ty).error = m) ∧
    (lookupFE fe k = some none → (fieldEntry st fe k ty).error = "") ∧
    (lookupFE fe k = none → (fieldEntry st fe k ty).error = "") ∧
    (fieldsOf signUpF ⟨st, fe⟩).map (fun p => (p.1, p.2.props)) =
      [("company", .textInput (objGet st "company")),
       ("email", .textInput (objGet st "email")),
       ("password", .textInput (objGet st "password")),
       ("phone", .textInput (objGet st "phone")),
       ("sendNewsletter", .checkbox (objGet st "sendNewsletter"))] := by
  refine ⟨⟨?_, ?_, ?_, ?_⟩, ?_, ?_, ⟨rfl, ?_⟩, ?_, ?_, ?_, ?_, ?_⟩
  · unfold createProps
    rw [if_pos (by decide)]
  · unfold createProps
    rw [if_pos (by decide)]
  · unfold createProps
    rw [if_pos (by decide)]
  · unfold createProps
    rw [if_pos (by decide)]
  · unfold createProps
    rw [if_neg (by decide), if_pos rfl]
  · unfold createProps
    rw [if_neg hn1, if_neg hn2]
  · intro key2 h
    unfold textInputKeyTriggersValidate at h
    exact beq_iff_eq.mp h
  · unfold fieldEntry
    exact hasKey_iff_lookup fe k
  · intro m hm
    unfold fieldEntry
    simp [hm, jsOrEmpty]
  · intro hm
    unfold fieldEntry
    simp [hm, jsOrEmpty]
  · intro hm
    unfold fieldEntry
    simp [hm, jsOrEmpty]
  · unfold fieldsOf fieldEntry createProps
    simp [codecProps, signUpF, SignUpForm, PropList.ofList, PropList.toList,
      unionMembers, TextInputField, CodecList.ofList, CodecList.toList]
    rw [if_pos (show Codec.boolean = CheckboxField from rfl)]
    rw [if_neg (by decide)]

/-- Witness for C9 at a constraint outside both families (`TypeString`),
on the initial sign-up state. -/
theorem C9_field_dispatch_witness :
    (createProps sInit "email" String64 = .textInput (objGet sInit "email") ∧
     createProps sInit "email" Email = .textInput (objGet sInit "email") ∧
     createProps sInit "email" Password = .textInput (objGet sInit "email") ∧
     createProps sInit "email" Phone = .textInput (objGet sInit "email")) ∧
    createProps sInit "email" CheckboxField = .checkbox (objGet sInit "email") ∧
    createProps sInit "email" TypeString = .emptyProps ∧
    (textInputKeyTriggersValidate "Enter" = true ∧
     ∀ key2, textInputKeyTriggersValidate key2 = true → key2 = "Enter") ∧
    ((fieldEntry sInit feInit "email" TypeString).isInvalid = true ↔
      (lookupFE feInit "email").isSome) ∧
    (∀ m, lookupFE feInit "email" = some (some m) →
      (fieldEntry sInit feInit "email" TypeString).error = m) ∧
    (lookupFE feInit "email" = some none →
      (fieldEntry sInit feInit "email" TypeString).error = "") ∧
    (lookupFE feInit "email" = none →
      (fieldEntry sInit feInit "email" TypeString).error = "") ∧
    (fieldsOf signUpF ⟨sInit, feInit⟩).map (fun p => (p.1, p.2.props)) =
      [("company", .textInput (objGet sInit "company")),
       ("email", .textInput (objGet sInit "email")),
       ("password", .textInput (objGet sInit "password")),
       ("phone", .textInput (objGet sInit "phone")),
       ("sendNewsletter", .checkbox (objGet sInit "sendNewsletter"))] :=
  C9_field_dispatch sInit feInit "email" TypeString (by decide) (by decide)

/-- C3.  The end-to-end sign-up scenario, for any environment agreeing
with the `validator` package on the four strings involved.  An immediate
`validate()` of the initial value stores a `FormErrors` with exactly the
keys `company`, `email`, `password` and `phone` — each mapped to the
`NonEmptyString` catalog message, `sendNewsletter` absent — and returns a
failure.  After editing `email` to `'a@b.com'`, `company` to `'Acme'`,
`password` to `'abcd'` and `phone` to `'+14155552671'`, a second
`validate()` stores the empty `FormErrors` and returns the decoded
value. -/
theorem C3_signup_scenario (env : Env)
    (h1 : env.isEmail "a@b.com" = true) (h2 : env.isMobilePhone "+14155552671" = true)
    (h3 : env.isEmail "" = false) (h4 : env.isMobilePhone "" = false) :
    (validate env signUpF ⟨sInit, []⟩).map (fun p => (p.1.formErrors, (okOf p.2).isSome)) =
      some (feInit, false) ∧
    validate env signUpF
      (setFieldValue (setFieldValue (setFieldValue (setFieldValue ⟨sInit, feInit⟩
        "email" (.vStr "a@b.com")) "company" (.vStr "Acme")) "password" (.vStr "abcd"))
        "phone" (.vStr "+14155552671")) =
      some (⟨sGood, []⟩, .ok sGood) := by
  constructor
  · simp [validate, decode, validateC, typGo, interGo, unionGo, signUpF, SignUpForm,
      String64, String512, Email, Password, Phone, NonEmptyTrimmedString, TypeString,
      NonEmptyString, TrimmedString, Max64String, Max512String, Min4String, EmailString,
      PhoneString, CodecList.ofList, PropList.ofList, brandPredOf, jsLength, jsTrim,
      jsWhitespace, mergeAll, sInit, objGet, objSet, ObjProps.get, ObjProps.set,
      errorsToFormErrors, e2feStep, hasKey, feInit, okOf, errsOf, h1, h2, h3, h4,
      withCtx, List.foldlM_cons, List.foldlM_nil,
      validationErrors.TypeString, validationErrors.NonEmptyString,
      validationErrors.TrimmedString, validationErrors.TooLong,
      validationErrors.TooShort, validationErrors.EmailString,
      validationErrors.PhoneString]
  · simp [validate, decode, validateC, typGo, interGo, unionGo, signUpF, SignUpForm,
      String64, String512, Email, Password, Phone, NonEmptyTrimmedString, TypeString,
      NonEmptyString, TrimmedString, Max64String, Max512String, Min4String, EmailString,
      PhoneString, CodecList.ofList, PropList.ofList, brandPredOf, jsLength, jsTrim,
      jsWhitespace, mergeAll, sInit, sGood, setFieldValue, objGet, objSet, ObjProps.get,
      ObjProps.set, errorsToFormErrors, e2feStep, hasKey, feInit, okOf, errsOf,
      h1, h2, h3, h4, withCtx, List.foldlM_cons, List.foldlM_nil,
      validationErrors.TypeString, validationErrors.NonEmptyString,
      validationErrors.TrimmedString, validationErrors.TooLong,
      validationErrors.TooShort, validationErrors.EmailString,
      validationErrors.PhoneString]

/-- Witness for C3 under the concrete environment `envW`. -/
theorem C3_signup_scenario_witness :
    (validate envW signUpF ⟨sInit, []⟩).map (fun p => (p.1.formErrors, (okOf p.2).isSome)) =
      some (feInit, false) ∧
    validate envW signUpF
      (setFieldValue (setFieldValue (setFieldValue (setFieldValue ⟨sInit, feInit⟩
        "email" (.vStr "a@b.com")) "company" (.vStr "Acme")) "password" (.vStr "abcd"))
        "phone" (.vStr "+14155552671")) =
      some (⟨sGood, []⟩, .ok sGood) :=
  C3_signup_scenario envW (by decide) (by decide) (by decide) (by decide)
